import Mathlib

/-!
Shallow embedding of two source files of the AMReX repository:

* `MLABecLaplacian.cpp` (the multilevel `alpha*A*u - beta*div(B*grad u)`
  operator): coefficient setters and the dirty flag, coefficient restriction
  across relaxation (multigrid) levels, the Robin boundary-condition fold into
  the cell-centered `A` coefficient, the per-level singularity check shared by
  `prepareForSolve` and `update`, and the smoother-variant selection of
  `Fsmooth`.

* `AMReX_HypreNodeLap.cpp` (the bridge to the external sparse solver):
  the global node numbering built in the constructor, the debug-build index
  overflow check, the singular-matrix row-0 adjustment applied during matrix
  assembly and vector load, and the vector-loading code of `loadVectors`.

Machine reals (`amrex::Real`) are modelled as `ℚ`; the comparisons and
algebraic identities the claims are about are exact, so no rounding model is
needed.  Fields (`MultiFab` data) are flattened lists of values in traversal
order.  The 2-D build (`AMREX_SPACEDIM == 2`, required by `HypreNodeLap`) is
used for the node-numbered mesh; the Robin fold is embedded for the
x-direction branch of the source, which is the only branch exercised by the
spec's 1-D scenario.
-/

namespace AMReXSpec

/-- In-place update of one element of a list, as a C++ `v[i] = f(v[i])`. -/
def listModify {α : Type} (f : α → α) : ℕ → List α → List α
  | _, [] => []
  | 0, a :: t => f a :: t
  | n + 1, a :: t => a :: listModify f n t

/-- Cell-centered or face-centered single-component field data, flattened. -/
abbrev CellField := List ℚ

/-- `MultiFab::setVal(v)`: overwrite every value of a field with `v`. -/
def setVal (v : ℚ) (f : CellField) : CellField := f.map (fun _ => v)

/-- Multi-component fab data: one flattened field per component. -/
abbrev MultiFabC := List CellField

/-!  ## MLABecLaplacian coefficient store (setters and the dirty flag)

`m_a_coeffs[amrlev][mglev]` is single component; `m_b_coeffs[amrlev][mglev]`
holds one multi-component fab per spatial direction.  Relaxation (multigrid)
level `0` is the finest level of an AMR level; the last entry is the
coarsest.  -/

structure ABecState where
  a_scalar : ℚ
  b_scalar : ℚ
  ncomp : ℕ
  a_coeffs : List (List CellField)
  b_coeffs : List (List (List MultiFabC))
  needs_update : Bool

/-- `MLABecLaplacian::setScalars(a, b)`: store the scalars and, when `a == 0`,
zero-fill `m_a_coeffs[amrlev][0]` on every AMR level.  The source does not
touch `m_needs_update` here. -/
def setScalars (s : ABecState) (a b : ℚ) : ABecState :=
  { s with
    a_scalar := a
    b_scalar := b
    a_coeffs :=
      if a = 0 then s.a_coeffs.map (fun mgs => listModify (setVal 0) 0 mgs)
      else s.a_coeffs }

/-- `MLABecLaplacian::setACoeffs(amrlev, alpha)` (MultiFab overload): copy the
single-component `alpha` into `m_a_coeffs[amrlev][0]` and mark dirty. -/
def setACoeffs (s : ABecState) (amrlev : ℕ) (alpha : CellField) : ABecState :=
  { s with
    a_coeffs := listModify (listModify (fun _ => alpha) 0) amrlev s.a_coeffs
    needs_update := true }

/-- `MLABecLaplacian::setACoeffs(amrlev, alpha)` (scalar overload):
`m_a_coeffs[amrlev][0].setVal(alpha)` and mark dirty. -/
def setACoeffsScalar (s : ABecState) (amrlev : ℕ) (alpha : ℚ) : ABecState :=
  { s with
    a_coeffs := listModify (listModify (setVal alpha) 0) amrlev s.a_coeffs
    needs_update := true }

/-- `MLABecLaplacian::setBCoeffs(amrlev, beta)` (per-direction MultiFab
overload): when the input has `ncomp` components copy componentwise, when it
has a single component broadcast component `0` to all `ncomp` destination
components; mark dirty. -/
def setBCoeffs (s : ABecState) (amrlev : ℕ) (beta : List MultiFabC) : ABecState :=
  { s with
    b_coeffs :=
      listModify (listModify (fun dirs =>
        if (beta.headD []).length = s.ncomp then
          (List.range dirs.length).map (fun idim =>
            (List.range s.ncomp).foldl
              (fun d ic => d.set ic ((beta.getD idim []).getD ic []))
              (dirs.getD idim []))
        else
          (List.range dirs.length).map (fun idim =>
            (List.range s.ncomp).foldl
              (fun d ic => d.set ic ((beta.getD idim []).getD 0 []))
              (dirs.getD idim []))) 0) amrlev s.b_coeffs
    needs_update := true }

/-- `MLABecLaplacian::setBCoeffs(amrlev, beta)` (uniform scalar overload):
`m_b_coeffs[amrlev][0][idim].setVal(beta)` for every direction; mark dirty. -/
def setBCoeffsScalar (s : ABecState) (amrlev : ℕ) (beta : ℚ) : ABecState :=
  { s with
    b_coeffs :=
      listModify (listModify (fun dirs =>
        dirs.map (fun mf => mf.map (setVal beta))) 0) amrlev s.b_coeffs
    needs_update := true }

/-- `MLABecLaplacian::setBCoeffs(amrlev, beta)` (per-component scalar vector
overload): for each direction the source calls `setVal(beta[icomp])` on the
whole fab for `icomp = 0..ncomp-1` in order; mark dirty. -/
def setBCoeffsVec (s : ABecState) (amrlev : ℕ) (beta : List ℚ) : ABecState :=
  { s with
    b_coeffs :=
      listModify (listModify (fun dirs =>
        dirs.map (fun mf =>
          (List.range s.ncomp).foldl
            (fun m ic => m.map (setVal (beta.getD ic 0))) mf)) 0) amrlev s.b_coeffs
    needs_update := true }

/-!  ## Coefficient restriction and the per-level singularity check

`averageDownCoeffsSameAmrLevel` builds each relaxation level's `A` field from
the next-finer one: `amrex::average_down` with ratio 2 (the standard
`mg_coarsen_ratio`), replaced by a zero fill when `m_a_scalar == 0`.  The
singularity check of `prepareForSolve` and `update` (they contain the same
code) then reads `m_a_coeffs[alev].back()`, the coarsest relaxation level. -/

/-- 1-D `amrex::average_down` with ratio 2 on uniform cells: each coarse value
is the mean of the two fine values it covers. -/
def averageDown2 : CellField → CellField
  | a :: b :: t => (a + b) / 2 :: averageDown2 t
  | _ => []

/-- One relaxation-level restriction step of `averageDownCoeffsSameAmrLevel`
for the `A` coefficient: zero fill when `a_scalar == 0`, otherwise
`average_down` with the standard ratio. -/
def coarsenA (a_scalar : ℚ) (prev : CellField) : CellField :=
  if a_scalar = 0 then setVal 0 (averageDown2 prev) else averageDown2 prev

/-- The `A`-coefficient relaxation hierarchy of one AMR level after
`averageDownCoeffs`: entry 0 is the finest level (as set by `setACoeffs`),
and each of the `k` further entries is obtained from its predecessor by
`coarsenA`.  The last entry is `m_a_coeffs[alev].back()`. -/
def aLevelsFrom (a_scalar : ℚ) (cur : CellField) : ℕ → List CellField
  | 0 => [cur]
  | k + 1 => cur :: aLevelsFrom a_scalar (coarsenA a_scalar cur) k

/-- `MultiFab::sum()`: sum of all values of the field. -/
def mfSum (f : CellField) : ℚ := f.sum

/-- `MultiFab::norm0()`: maximum absolute value of the field (0 if empty). -/
def norm0 (f : CellField) : ℚ := f.foldl (fun m v => max m |v|) 0

/-- The relative singularity threshold `1.e-12` of the source. -/
def eps12 : ℚ := 1 / 10 ^ 12

/-- The per-AMR-level singularity check shared by
`MLABecLaplacian::prepareForSolve` and `MLABecLaplacian::update`:
with no Dirichlet boundary anywhere, the level's domain covered by its own
cells and no overset mask at `[alev][0]`, the level is singular when
`a_scalar == 0`, and otherwise when `sum <= norm0 * 1e-12` evaluated on
`m_a_coeffs[alev].back()` — the **coarsest** relaxation level's field. -/
def isSingularLevel (no_dirichlet domain_covered overset : Bool)
    (a_scalar : ℚ) (levels : List CellField) : Bool :=
  if no_dirichlet && domain_covered && !overset then
    if a_scalar = 0 then true
    else decide (mfSum (levels.getLastD []) ≤ norm0 (levels.getLastD []) * eps12)
  else false

/-!  ## Fsmooth smoother-variant selection -/

/-- The three relaxation kernels `Fsmooth` can dispatch to. -/
inductive SmoothVariant
  | oversetRB
  | plainRB
  | lineSolveRB
deriving DecidableEq

/-- `IntVect` of the 2-D build. -/
abbrev IntVect2 := ℤ × ℤ

/-- The standard coarsening factor `mg_coarsen_ratio = 2` as an `IntVect`
(`IntVect(mg_coarsen_ratio)`, to which `mg_coarsen_ratio_vec` entries are
compared in `Fsmooth`). -/
def stdCoarsenIv : IntVect2 := (2, 2)

/-- `Fsmooth`'s `regular_coarsening` flag: `true` unless `amrlev == 0 &&
mglev > 0` and `mg_coarsen_ratio_vec[mglev-1] != mg_coarsen_ratio`. -/
def regularCoarsening (amrlev mglev : ℕ) (rvec : List IntVect2) : Bool :=
  if amrlev = 0 && decide (0 < mglev) then
    decide (rvec.getD (mglev - 1) stdCoarsenIv = stdCoarsenIv)
  else true

/-- The kernel dispatch of `MLABecLaplacian::Fsmooth`: the overset kernel when
`m_overset_mask[amrlev][mglev]` is present, else the plain red-black kernel
when `regular_coarsening`, else the line-solve red-black kernel. -/
def selectSmoothVariant (overset_present : Bool) (amrlev mglev : ℕ)
    (rvec : List IntVect2) : SmoothVariant :=
  if overset_present then .oversetRB
  else if regularCoarsening amrlev mglev rvec then .plainRB
  else .lineSolveRB

/-!  ## Robin boundary-condition fold (`applyRobinBCTermsCoeffs`)

State of a 1-D, single-component, single-patch problem whose patch covers the
whole domain of `n` cells, so `adjCellLo`/`adjCellHi` of the valid box lie
outside the domain on both sides.  `rbc_lo`/`rbc_hi` are the Robin `(a, b)`
pairs stored in the ghost cells of `m_robin_bcval`. -/

structure Robin1D where
  a_scalar : ℚ
  b_scalar : ℚ
  n : ℕ
  dxi : ℚ
  lobc_robin : Bool
  hibc_robin : Bool
  acoef : CellField
  bcoef : CellField
  rbc_lo : ℚ × ℚ
  rbc_hi : ℚ × ℚ
deriving DecidableEq

/-- Modelled from the spec: `hasRobinBC()` lives in the base class
`MLCellABecLap`, which is not among the given sources; per the spec it
reports whether any configured boundary type is Robin. -/
def hasRobinBC (s : Robin1D) : Bool := s.lobc_robin || s.hibc_robin

/-- The ghost-elimination coefficient `B = (b/h - a/2) / (b/h + a/2)` of the
source comment, computed as in the kernels:
`(rbc1*dxi - rbc0*0.5) / (rbc1*dxi + rbc0*0.5)`. -/
def robinB (ra rb dxi : ℚ) : ℚ :=
  (rb * dxi - ra * (1 / 2)) / (rb * dxi + ra * (1 / 2))

/-- The low-x Robin fold: `afab(i+1) += fac*bfab(i+1)*(1-B)` with `i` the low
ghost cell, i.e. cell 0 of the field. -/
def robinFoldLo (fac dxi bcoef0 ra rb : ℚ) (ac : CellField) : CellField :=
  listModify (fun v => v + fac * bcoef0 * (1 - robinB ra rb dxi)) 0 ac

/-- The high-x Robin fold: `afab(i-1) += fac*bfab(i)*(1-B)` with `i` the high
ghost cell `n`, i.e. cell `n-1` of the field and face `n` of `bcoef`. -/
def robinFoldHi (n : ℕ) (fac dxi bcoefn ra rb : ℚ) (ac : CellField) : CellField :=
  listModify (fun v => v + fac * bcoefn * (1 - robinB ra rb dxi)) (n - 1) ac

/-- `MLABecLaplacian::applyRobinBCTermsCoeffs` for the 1-D state above:
return unchanged unless some boundary is Robin; otherwise replace a zero
`m_a_scalar` by 1, form `fac = (b_scalar/a_scalar)*dxi*dxi`, and fold each
Robin side into the `A` coefficient of its boundary-adjacent cell. -/
def applyRobinBCTermsCoeffs (s : Robin1D) : Robin1D :=
  if hasRobinBC s = false then s
  else
    let a1 : ℚ := if s.a_scalar = 0 then 1 else s.a_scalar
    let fac : ℚ := s.b_scalar / a1 * s.dxi * s.dxi
    let ac1 : CellField :=
      if s.lobc_robin then
        robinFoldLo fac s.dxi (s.bcoef.getD 0 0) s.rbc_lo.1 s.rbc_lo.2 s.acoef
      else s.acoef
    let ac2 : CellField :=
      if s.hibc_robin then
        robinFoldHi s.n fac s.dxi (s.bcoef.getD s.n 0) s.rbc_hi.1 s.rbc_hi.2 ac1
      else ac1
    { s with a_scalar := a1, acoef := ac2 }

/-!  ## HypreNodeLap: global node numbering

The constructor first numbers every patch's nodal valid box in the source's
loop order (`k` outer, then `j`, then `i` innermost — row-major with `x`
fastest), writing `std::numeric_limits<Int>::lowest()` into non-owned or
Dirichlet nodes and `id++` into retained ones; it stores each patch's
retained count in `nnodes_grid`.  It then gathers each process's total,
computes this process's exclusive partial sum `proc_begin` over the ranks
before it, walks the local patches accumulating per-patch offsets, and
`fill_node_id` adds the offset to every non-negative id and collapses every
sentinel to `-1`.  Processes are a list of patch lists in rank order. -/

/-- `std::numeric_limits<Int>::lowest()` for 32-bit `HYPRE_Int`. -/
def intLowest : ℤ := -2147483648

/-- `std::numeric_limits<Int>::max()` for 32-bit `HYPRE_Int`. -/
def hypreIntMax : ℤ := 2147483647

/-- A nodal valid box of one patch (2-D build). -/
structure NdBox where
  lox : ℤ
  loy : ℤ
  hix : ℤ
  hiy : ℤ

/-- The nodes of a box in the constructor's traversal order: `j` outer, `i`
innermost (row-major, `x` fastest). -/
def boxCells (b : NdBox) : List (ℤ × ℤ) :=
  (List.range (b.hiy + 1 - b.loy).toNat).flatMap (fun j =>
    (List.range (b.hix + 1 - b.lox).toNat).map (fun i =>
      (b.lox + (i : ℤ), b.loy + (j : ℤ))))

/-- One distributed-mesh patch with its ownership and Dirichlet masks. -/
structure Patch where
  ndbox : NdBox
  owner : ℤ × ℤ → Bool
  dirichlet : ℤ × ℤ → Bool

/-- Whether each node of the patch is retained, in traversal order: the
source keeps a node unless `!owner(i,j,k) || dirichlet(i,j,k)`. -/
def retainedFlags (p : Patch) : List Bool :=
  (boxCells p.ndbox).map (fun c => !(!(p.owner c) || p.dirichlet c))

/-- The numbering loop body: retained nodes receive the running counter and
advance it, the rest receive the sentinel. -/
def assignIds : List Bool → ℤ → List ℤ
  | [], _ => []
  | b :: t, c => if b then c :: assignIds t (c + 1) else intLowest :: assignIds t c

/-- `nnodes_grid[mfi]`: the number of retained nodes of the patch. -/
def patchCount (p : Patch) : ℕ := (retainedFlags p).count true

/-- `HypreNodeLap::fill_node_id` on one patch: add the patch offset to every
non-negative id and set every remaining sentinel to `-1`. -/
def fillNodeId (os : ℤ) (ids : List ℤ) : List ℤ :=
  ids.map (fun v => if 0 ≤ v then v + os else -1)

/-- The final node ids of one patch whose offset (intra-process partial sum
plus `proc_begin`) is `start`. -/
def patchNodeIds (start : ℕ) (p : Patch) : List ℤ :=
  fillNodeId (start : ℤ) (assignIds (retainedFlags p) 0)

/-- The node ids of all patches of one process whose `proc_begin` is
`start`, patch offsets accumulating as in the constructor's `offset` walk. -/
def procNodeIds (start : ℕ) : List Patch → List (List ℤ)
  | [] => []
  | p :: t => patchNodeIds start p :: procNodeIds (start + patchCount p) t

/-- `nnodes_proc`: one process's total retained count. -/
def procCount (ps : List Patch) : ℕ := (ps.map patchCount).sum

/-- The node ids of every process, ranks in list order, the first rank
starting at `start`. -/
def allNodeIds (start : ℕ) : List (List Patch) → List (List ℤ)
  | [] => []
  | ps :: rest => procNodeIds start ps ++ allNodeIds (start + procCount ps) rest

/-- The sum of all processes' retained counts (`N`). -/
def totalCount (procs : List (List Patch)) : ℕ := (procs.map procCount).sum

/-- `proc_begin` of rank `r`: the exclusive partial sum of the retained
counts of the ranks before `r`. -/
def procBegin (procs : List (List Patch)) (r : ℕ) : ℕ :=
  ((procs.map procCount).take r).sum

/-- The non-sentinel ids of a list of per-patch id fields, in traversal
order. -/
def retainedIds (idss : List (List ℤ)) : List ℤ :=
  idss.flatten.filter (fun v => decide (0 ≤ v))

/-- The total number of nodes of the nodal box arrays (`nba.numPts()`),
summed over every patch of every process. -/
def gridNodeTotal (procs : List (List Patch)) : ℕ :=
  (procs.map (fun ps => (ps.map (fun p => (boxCells p.ndbox).length)).sum)).sum

/-!  ## HypreNodeLap: overflow check, singular row-0 pin, vector load -/

/-- The build configuration bits the constructor's overflow check depends
on: it is compiled only under `AMREX_DEBUG || AMREX_TESTING`, and runs only
when `sizeof(Int) < sizeof(Long)`. -/
structure BuildConfig where
  debugOrTesting : Bool
  intNarrowerThanLong : Bool

/-- Whether the constructor aborts on index-width overflow: in a
debug/testing build with a narrow id type, it asserts
`nba.numPts() < std::numeric_limits<Int>::max()` and aborts when that
fails.  `nn` is `nba.numPts()`, the total node count of the grids. -/
def ctorOverflowAbort (cfg : BuildConfig) (nn : ℤ) : Bool :=
  cfg.debugOrTesting && cfg.intNarrowerThanLong && !(decide (nn < hypreIntMax))

/-- The matrix-assembly loop of the constructor rewrites row 0's entries
(`mat[0..ncols[0])`) when the adjust-singular-matrix policy is active, the
bottom level is singular and the patch's first global row `rows[0]` is 0:
off-diagonal entries (`cols[ic] != rows[0]`) become 0, the diagonal entry is
kept. -/
def zeroOffDiag (row0 : ℤ) : ℕ → List ℤ → List ℚ → List ℚ
  | 0, _, mat => mat
  | _ + 1, _, [] => []
  | _ + 1, [], mat => mat
  | k + 1, c :: ct, m :: mt =>
    (if c = row0 then m else 0) :: zeroOffDiag row0 k ct mt

/-- The singular-matrix adjustment of `HypreNodeLap::HypreNodeLap` applied to
one patch's flattened row data (`ncols`, `cols`, `mat` as produced by
`fillIJMatrix`); `rows[0]` is read under the constructor's `nrows > 0`
guard. -/
def adjustSingularMat (adjust bottomSingular : Bool) (rows : List ℤ)
    (ncols : List ℕ) (cols : List ℤ) (mat : List ℚ) : List ℚ :=
  if adjust && bottomSingular && decide (rows.getD 0 0 = 0) then
    zeroOffDiag (rows.getD 0 0) (ncols.getD 0 0) cols mat
  else mat

/-- The singular-vector adjustment of `HypreNodeLap::loadVectors`: under the
same condition the right-hand-side value submitted for the patch's first row
is set to exactly zero (`bvec[0] = 0.0`). -/
def adjustSingularB (adjust bottomSingular : Bool) (rows : List ℤ)
    (bvec : List ℚ) : List ℚ :=
  if adjust && bottomSingular && decide (rows.getD 0 0 = 0) then bvec.set 0 0
  else bvec

/-- The constructor's per-patch guard around matrix assembly:
`if (nrows > 0)`. -/
def ctorMatrixGuard (nrows : ℤ) : Bool := decide (0 < nrows)

/-- The per-patch guard of `loadVectors`: `if (nrows >= 0)`. -/
def loadVectorsGuard (nrows : ℤ) : Bool := decide (0 ≤ nrows)

/-- `node_id_vec[mfi]` as filled by the constructor: the patch's retained
global ids when `nrows > 0`; otherwise the vector is never filled and stays
empty. -/
def ctorRowsOf (start : ℕ) (p : Patch) : List ℤ :=
  if 0 < patchCount p then retainedIds [patchNodeIds start p] else []

/-- The `bvec` of `loadVectors`: the right-hand-side values of the patch's
cells with `nid(i,j,k) >= 0 && owner(i,j,k)`, pushed in traversal order. -/
def bvecOf (rhs : ℤ × ℤ → ℚ) (start : ℕ) (p : Patch) : List ℚ :=
  ((boxCells p.ndbox).zip (patchNodeIds start p)).filterMap (fun ci =>
    if decide (0 ≤ ci.2) && p.owner ci.1 then some (rhs ci.1) else none)

/-- The initial-guess values `loadVectors` submits to the solver vector `x`
for a patch with `nrows` rows: `loadVectors` first does `soln.setVal(0.0)`
and then passes the first `nrows` values of the patch's (now zeroed)
solution data. -/
def loadVectorsXSubmit (soln : CellField) (nrows : ℕ) : List ℚ :=
  (setVal 0 soln).take nrows

/-!  ## Concrete instances used by counterexamples, scenarios and witnesses -/

/-- A 4x4 nodal patch with nothing masked (the spec's Scenario C mesh). -/
def patch4x4 : Patch :=
  { ndbox := { lox := 0, loy := 0, hix := 3, hiy := 3 }
    owner := fun _ => true
    dirichlet := fun _ => false }

/-- A two-node patch whose second node is not owned. -/
def patchMixed : Patch :=
  { ndbox := { lox := 0, loy := 0, hix := 1, hiy := 0 }
    owner := fun c => decide (c.1 = 0)
    dirichlet := fun _ => false }

/-- A 2x2 nodal patch with every node Dirichlet-masked: it retains zero
nodes. -/
def patchAllDirichlet : Patch :=
  { ndbox := { lox := 0, loy := 0, hix := 1, hiy := 1 }
    owner := fun _ => true
    dirichlet := fun _ => true }

/-- The finest-level `A` field of the C1 counterexample. -/
def c1afield : CellField := [1, 1, -1, -1 + 3 / (2 * 10 ^ 12)]

/-- A coefficient store with a clean (`needs_update = false`) state. -/
def c2state : ABecState :=
  { a_scalar := 1, b_scalar := 1, ncomp := 1
    a_coeffs := [[[1, 1]]], b_coeffs := [[[[[1, 1, 1]]]]]
    needs_update := false }

/-- The spec's Scenario A: 1-D, 8 cells, `a_scalar = b_scalar = 1`, `A = 1`,
`B = 1`, Robin `a = 0, b = 1` at the high-x boundary. -/
def scenarioA : Robin1D :=
  { a_scalar := 1, b_scalar := 1, n := 8, dxi := 8
    lobc_robin := false, hibc_robin := true
    acoef := List.replicate 8 1, bcoef := List.replicate 9 1
    rbc_lo := (0, 0), rbc_hi := (0, 1) }

/-- Scenario A with `a_scalar = 0` on entry. -/
def scenarioA0 : Robin1D := { scenarioA with a_scalar := 0 }

/-- Scenario A with no Robin boundary at all. -/
def scenarioNoRobin : Robin1D := { scenarioA with hibc_robin := false }

/-!  ## Theorems -/

/-- Claim C2 (amended): `setACoeffs` (both overloads) and `setBCoeffs` (all
three overloads) leave the store Dirty after they return; `setScalars` leaves
the dirty flag exactly as it found it (in particular a Clean store stays
Clean across `setScalars`). -/
theorem coefficient_setters_dirty_flag (s : ABecState) (l : ℕ) (alpha : CellField)
    (q q2 : ℚ) (beta : List MultiFabC) (bv : List ℚ) (a b : ℚ) :
    (setACoeffs s l alpha).needs_update = true ∧
    (setACoeffsScalar s l q).needs_update = true ∧
    (setBCoeffs s l beta).needs_update = true ∧
    (setBCoeffsScalar s l q2).needs_update = true ∧
    (setBCoeffsVec s l bv).needs_update = true ∧
    (setScalars s a b).needs_update = s.needs_update :=
  ⟨rfl, rfl, rfl, rfl, rfl, rfl⟩

/-- Claim C2 is false as stated: `setScalars` is a coefficient setter of the
store, yet calling it on a Clean store (here with `a = 0`, which also
exercises its zero-fill of the `A` coefficients) leaves `m_needs_update`
false. -/
theorem setScalars_not_dirty_counterexample :
    (setScalars c2state 0 2).needs_update = false := rfl

/-- Claim C4 (amended): the plain red-black kernel is selected exactly when
coarsening is regular and no overset mask is present at `(amrlev, mglev)`;
the line-solve red-black kernel is selected exactly when coarsening is
non-uniform on the base AMR level AND no overset mask is present (an overset
mask takes precedence over the line solve); and coarsening is non-regular
precisely for `amrlev = 0`, `mglev > 0` with
`mg_coarsen_ratio_vec[mglev-1]` differing from the standard ratio. -/
theorem fsmooth_variant_characterization (ov : Bool) (amrlev mglev : ℕ)
    (rvec : List IntVect2) :
    (selectSmoothVariant ov amrlev mglev rvec = SmoothVariant.plainRB ↔
      (ov = false ∧ regularCoarsening amrlev mglev rvec = true)) ∧
    (selectSmoothVariant ov amrlev mglev rvec = SmoothVariant.lineSolveRB ↔
      (ov = false ∧ regularCoarsening amrlev mglev rvec = false)) ∧
    (regularCoarsening amrlev mglev rvec = false ↔
      (amrlev = 0 ∧ 0 < mglev ∧ rvec.getD (mglev - 1) stdCoarsenIv ≠ stdCoarsenIv)) := by
  refine ⟨?_, ?_, ?_⟩
  · cases ov
    · cases h : regularCoarsening amrlev mglev rvec <;> simp [selectSmoothVariant, h]
    · simp [selectSmoothVariant]
  · cases ov
    · cases h : regularCoarsening amrlev mglev rvec <;> simp [selectSmoothVariant, h]
    · simp [selectSmoothVariant]
  · by_cases h0 : amrlev = 0
    · by_cases h1 : 0 < mglev
      · simp [regularCoarsening, h0, h1]
      · simp [regularCoarsening, h0, h1, Nat.le_zero.mp (Nat.not_lt.mp h1)]
    · simp [regularCoarsening, h0]

/-- Claim C4 is false in its line-solve half: with non-uniform coarsening on
the base level (`amrlev = 0`, `mglev = 1`, ratio `(2,1)` differing from the
standard `(2,2)`) but an overset mask present, `Fsmooth` selects the overset
kernel, not the line-solve kernel. -/
theorem fsmooth_overset_precedence_counterexample :
    regularCoarsening 0 1 [(2, 1)] = false ∧
    selectSmoothVariant true 0 1 [(2, 1)] = SmoothVariant.oversetRB ∧
    SmoothVariant.oversetRB ≠ SmoothVariant.lineSolveRB := by
  refine ⟨by decide, rfl, by decide⟩

/-- Claim C3 (amended): the constructor's overflow abort fires exactly in a
debug/testing build with an id type narrower than `Long` whose grids' total
node count `nba.numPts()` reaches the id type's maximum; no other build
configuration detects the overflow.  The quantity checked is the total node
count of the grids, an upper bound on the retained-node count (second
conjunct), not the retained count itself. -/
theorem ctor_overflow_check_characterization (cfg : BuildConfig) (nn : ℤ)
    (procs : List (List Patch)) :
    (ctorOverflowAbort cfg nn = true ↔
      (cfg.debugOrTesting = true ∧ cfg.intNarrowerThanLong = true ∧
        hypreIntMax ≤ nn)) ∧
    totalCount procs ≤ gridNodeTotal procs := by
  constructor
  · unfold ctorOverflowAbort
    cases cfg.debugOrTesting <;> cases cfg.intNarrowerThanLong <;>
      simp [not_lt]
  · unfold totalCount gridNodeTotal
    apply List.sum_le_sum
    intro ps _
    apply List.sum_le_sum
    intro p _
    calc patchCount p ≤ (retainedFlags p).length := List.count_le_length true _
      _ = (boxCells p.ndbox).length := by simp [retainedFlags]

/-- Claim C3 is false as stated: in a release build (no debug/testing), a
retained-node total one past the id type's maximum produces no abort at
construction, although the claim requires a fatal error in every build
configuration. -/
theorem overflow_release_build_counterexample :
    hypreIntMax < hypreIntMax + 1 ∧
    ctorOverflowAbort { debugOrTesting := false, intNarrowerThanLong := true }
      (hypreIntMax + 1) = false := by
  refine ⟨by decide, rfl⟩

/-- Claim C9: the claim's safety assertion fails on the code.  A patch whose
nodes are all Dirichlet-masked retains zero rows (`nnodes_grid = 0`); the
guard of `loadVectors` (`nrows >= 0`) still admits it — unlike the
constructor's matrix-assembly guard `nrows > 0` on the same quantity — and
inside the admitted branch the patch's `node_id_vec` is empty (the
constructor never filled it) and its `bvec` is empty, so the `rows[0]` read
and the `bvec[0] = 0` write of the singular adjustment are out of bounds. -/
theorem loadVectors_zero_row_patch :
    patchCount patchAllDirichlet = 0 ∧
    loadVectorsGuard ((patchCount patchAllDirichlet : ℕ) : ℤ) = true ∧
    ctorMatrixGuard ((patchCount patchAllDirichlet : ℕ) : ℤ) = false ∧
    (ctorRowsOf 0 patchAllDirichlet).get? 0 = none ∧
    (bvecOf (fun _ => 1) 0 patchAllDirichlet).get? 0 = none := by
  refine ⟨by decide, by decide, by decide, by decide, by decide⟩

theorem listModify_id {α : Type} (f : α → α) (h : ∀ a, f a = a) :
    ∀ (i : ℕ) (l : List α), listModify f i l = l := by
  intro i l
  induction l generalizing i with
  | nil => cases i <;> rfl
  | cons a t ih =>
    cases i with
    | zero => simp [listModify, h]
    | succ n => simp [listModify, ih]

theorem robinB_pure_neumann (b dxi : ℚ) (h : b * dxi ≠ 0) : robinB 0 b dxi = 1 := by
  unfold robinB
  simp only [zero_mul, sub_zero, add_zero]
  exact div_self h

theorem robinFoldLo_neumann (fac dxi bc rb : ℚ) (ac : CellField)
    (h : rb * dxi ≠ 0) : robinFoldLo fac dxi bc 0 rb ac = ac := by
  unfold robinFoldLo
  rw [robinB_pure_neumann rb dxi h]
  exact listModify_id _ (fun a => by ring) _ _

theorem robinFoldHi_neumann (n : ℕ) (fac dxi bc rb : ℚ) (ac : CellField)
    (h : rb * dxi ≠ 0) : robinFoldHi n fac dxi bc 0 rb ac = ac := by
  unfold robinFoldHi
  rw [robinB_pure_neumann rb dxi h]
  exact listModify_id _ (fun a => by ring) _ _

/-- Claim C7: where a Robin boundary with `a = 0`, `b ≠ 0` (pure Neumann)
applies, the fold leaves the diagonal `A` coefficient unmodified at every
boundary-adjacent cell (`alpha_tilde == alpha`). -/
theorem robin_pure_neumann_diag (s : Robin1D)
    (hlo : s.lobc_robin = true → s.rbc_lo.1 = 0 ∧ s.rbc_lo.2 * s.dxi ≠ 0)
    (hhi : s.hibc_robin = true → s.rbc_hi.1 = 0 ∧ s.rbc_hi.2 * s.dxi ≠ 0) :
    (applyRobinBCTermsCoeffs s).acoef = s.acoef := by
  cases hR : hasRobinBC s with
  | false => simp [applyRobinBCTermsCoeffs, hR]
  | true =>
    cases hL : s.lobc_robin <;> cases hH : s.hibc_robin
    · simp [hasRobinBC, hL, hH] at hR
    · obtain ⟨h0, hne⟩ := hhi hH
      have hfold : ∀ fac ac, robinFoldHi s.n fac s.dxi (s.bcoef.getD s.n 0)
          s.rbc_hi.1 s.rbc_hi.2 ac = ac := by
        intro fac ac
        rw [h0]
        exact robinFoldHi_neumann _ _ _ _ _ _ hne
      simp only [applyRobinBCTermsCoeffs, hR, hL, hH, Bool.true_eq_false,
        if_false, if_true]
      exact hfold _ _
    · obtain ⟨h0, hne⟩ := hlo hL
      have hfold : ∀ fac ac, robinFoldLo fac s.dxi (s.bcoef.getD 0 0)
          s.rbc_lo.1 s.rbc_lo.2 ac = ac := by
        intro fac ac
        rw [h0]
        exact robinFoldLo_neumann _ _ _ _ _ hne
      simp only [applyRobinBCTermsCoeffs, hR, hL, hH, Bool.true_eq_false,
        if_false, if_true]
      exact hfold _ _
    · obtain ⟨h0lo, hnelo⟩ := hlo hL
      obtain ⟨h0hi, hnehi⟩ := hhi hH
      have hfoldlo : ∀ fac ac, robinFoldLo fac s.dxi (s.bcoef.getD 0 0)
          s.rbc_lo.1 s.rbc_lo.2 ac = ac := by
        intro fac ac
        rw [h0lo]
        exact robinFoldLo_neumann _ _ _ _ _ hnelo
      have hfoldhi : ∀ fac ac, robinFoldHi s.n fac s.dxi (s.bcoef.getD s.n 0)
          s.rbc_hi.1 s.rbc_hi.2 ac = ac := by
        intro fac ac
        rw [h0hi]
        exact robinFoldHi_neumann _ _ _ _ _ _ hnehi
      simp only [applyRobinBCTermsCoeffs, hR, hL, hH, Bool.true_eq_false,
        if_false, if_true]
      exact (hfoldhi _ _).trans (hfoldlo _ _)

/-- Witness for claim C7 at the spec's Scenario A: 1-D, 8 cells,
`a_scalar = b_scalar = 1`, `A = 1`, `B = 1`, Robin `a = 0, b = 1` at the
high-x boundary; the `A` coefficient of the last cell is exactly 1 after
`applyRobinBCTermsCoeffs`. -/
theorem robin_pure_neumann_diag_witness :
    (applyRobinBCTermsCoeffs scenarioA).acoef = scenarioA.acoef ∧
    (applyRobinBCTermsCoeffs scenarioA).acoef.getD 7 0 = 1 := by
  have h := robin_pure_neumann_diag scenarioA
    (fun hc => absurd hc (by simp [scenarioA]))
    (fun _ => ⟨rfl, by norm_num [scenarioA]⟩)
  refine ⟨h, ?_⟩
  rw [h]
  rfl

/-- Claim C8: `applyRobinBCTermsCoeffs` mutates the global `a_scalar`: with
at least one Robin boundary configured and `a_scalar == 0` on entry it sets
`a_scalar` to 1, and with no Robin boundary configured it changes no state
at all. -/
theorem applyRobin_a_scalar_mutation (s : Robin1D) :
    (hasRobinBC s = true → s.a_scalar = 0 →
      (applyRobinBCTermsCoeffs s).a_scalar = 1) ∧
    (hasRobinBC s = false → applyRobinBCTermsCoeffs s = s) := by
  constructor
  · intro hR h0
    simp [applyRobinBCTermsCoeffs, hR, h0]
  · intro hR
    simp [applyRobinBCTermsCoeffs, hR]

/-- Witness for claim C8: Scenario A with `a_scalar = 0` on entry comes out
with `a_scalar = 1`, and Scenario A with no Robin boundary is returned
entirely unchanged. -/
theorem applyRobin_a_scalar_mutation_witness :
    (applyRobinBCTermsCoeffs scenarioA0).a_scalar = 1 ∧
    applyRobinBCTermsCoeffs scenarioNoRobin = scenarioNoRobin :=
  ⟨(applyRobin_a_scalar_mutation scenarioA0).1 rfl rfl,
   (applyRobin_a_scalar_mutation scenarioNoRobin).2 rfl⟩

theorem zeroOffDiag_getD_lt (row0 : ℤ) :
    ∀ (k : ℕ) (cols : List ℤ) (mat : List ℚ) (ic : ℕ), ic < k → k ≤ cols.length →
      (zeroOffDiag row0 k cols mat).getD ic 0 =
        (if cols.getD ic 0 = row0 then mat.getD ic 0 else 0) := by
  intro k
  induction k with
  | zero => intro cols mat ic h _; omega
  | succ n ih =>
    intro cols mat ic h hlen
    match cols, mat with
    | [], _ => simp at hlen
    | c :: ct, [] =>
      cases ic with
      | zero => simp [zeroOffDiag]
      | succ j => simp [zeroOffDiag]
    | c :: ct, m :: mt =>
      cases ic with
      | zero => simp [zeroOffDiag]
      | succ j =>
        simp only [zeroOffDiag, List.getD_cons_succ]
        exact ih ct mt j (by omega) (by simpa using hlen)

theorem zeroOffDiag_getD_ge (row0 : ℤ) :
    ∀ (k : ℕ) (cols : List ℤ) (mat : List ℚ) (ic : ℕ), k ≤ ic →
      (zeroOffDiag row0 k cols mat).getD ic 0 = mat.getD ic 0 := by
  intro k
  induction k with
  | zero => intro cols mat ic _; rfl
  | succ n ih =>
    intro cols mat ic h
    match cols, mat with
    | [], [] => simp [zeroOffDiag]
    | [], m :: mt => simp [zeroOffDiag]
    | c :: ct, [] => simp [zeroOffDiag]
    | c :: ct, m :: mt =>
      cases ic with
      | zero => omega
      | succ j =>
        simp only [zeroOffDiag, List.getD_cons_succ]
        exact ih ct mt j (by omega)

/-- Claim C5: when the adjust-singular-matrix policy is active, the bottom
level is singular and the patch's first global row is 0, matrix assembly
zeroes every off-diagonal entry of row 0 and keeps its diagonal entry, and
entries beyond row 0 are untouched; vector load submits exactly zero for row
0 and leaves every other right-hand-side value unchanged.  When the
condition fails, neither the matrix data nor the right-hand-side data is
altered. -/
theorem singular_row0_pin (adjust bottomSingular : Bool) (rows : List ℤ)
    (ncols : List ℕ) (cols : List ℤ) (mat bvec : List ℚ)
    (hcols : ncols.getD 0 0 ≤ cols.length) :
    ((adjust = true ∧ bottomSingular = true ∧ rows.getD 0 0 = 0) →
      ((∀ ic, ic < ncols.getD 0 0 →
          (adjustSingularMat adjust bottomSingular rows ncols cols mat).getD ic 0 =
            (if cols.getD ic 0 = rows.getD 0 0 then mat.getD ic 0 else 0)) ∧
       (∀ ic, ncols.getD 0 0 ≤ ic →
          (adjustSingularMat adjust bottomSingular rows ncols cols mat).getD ic 0 =
            mat.getD ic 0) ∧
       (adjustSingularB adjust bottomSingular rows bvec).getD 0 0 = 0 ∧
       (∀ j, 0 < j →
          (adjustSingularB adjust bottomSingular rows bvec).getD j 0 =
            bvec.getD j 0))) ∧
    (¬ (adjust = true ∧ bottomSingular = true ∧ rows.getD 0 0 = 0) →
      (adjustSingularMat adjust bottomSingular rows ncols cols mat = mat ∧
       adjustSingularB adjust bottomSingular rows bvec = bvec)) := by
  constructor
  · rintro ⟨ha, hs, hr⟩
    have hcond : (adjust && bottomSingular && decide (rows.getD 0 0 = 0)) = true := by
      rw [ha, hs, hr]
      decide
    have hmat : adjustSingularMat adjust bottomSingular rows ncols cols mat =
        zeroOffDiag (rows.getD 0 0) (ncols.getD 0 0) cols mat := by
      unfold adjustSingularMat
      rw [if_pos hcond]
    have hB : adjustSingularB adjust bottomSingular rows bvec = bvec.set 0 0 := by
      unfold adjustSingularB
      rw [if_pos hcond]
    refine ⟨?_, ?_, ?_, ?_⟩
    · intro ic hic
      rw [hmat]
      exact zeroOffDiag_getD_lt _ _ _ _ _ hic hcols
    · intro ic hic
      rw [hmat]
      exact zeroOffDiag_getD_ge _ _ _ _ _ hic
    · rw [hB]
      cases bvec <;> simp
    · intro j hj
      rw [hB]
      cases bvec with
      | nil => simp
      | cons b t =>
        cases j with
        | zero => omega
        | succ m => simp
  · intro hnot
    have hcond : ¬ ((adjust && bottomSingular && decide (rows.getD 0 0 = 0)) = true) := by
      intro hc
      apply hnot
      refine ⟨?_, ?_, ?_⟩
      · cases adjust
        · simp at hc
        · rfl
      · cases bottomSingular
        · simp at hc
        · rfl
      · have : decide (rows.getD 0 0 = 0) = true := by
          cases h : decide (rows.getD 0 0 = 0)
          · rw [h] at hc
            simp at hc
          · rfl
        exact of_decide_eq_true this
    constructor
    · unfold adjustSingularMat
      rw [if_neg hcond]
    · unfold adjustSingularB
      rw [if_neg hcond]

/-- Witness for claim C5: a concrete row-0 patch (`rows = [0,1]`, row 0
having 3 columns `[0,1,2]` with values `[5,6,7]`, right-hand side `[9,9]`):
the off-diagonal entry at column 1 becomes 0 and the submitted right-hand
side for row 0 becomes 0. -/
theorem singular_row0_pin_witness :
    (adjustSingularMat true true [0, 1] [3] [0, 1, 2] [5, 6, 7]).getD 1 0 = 0 ∧
    (adjustSingularB true true [0, 1] [9, 9]).getD 0 0 = 0 := by
  have h := (singular_row0_pin true true [0, 1] [3] [0, 1, 2] [5, 6, 7] [9, 9]
    (by decide)).1 ⟨rfl, rfl, rfl⟩
  refine ⟨?_, h.2.2.1⟩
  have h1 := h.1 1 (by decide)
  simpa using h1

theorem filter_nonneg_cons_pos (x : ℤ) (l : List ℤ) (h : 0 ≤ x) :
    (x :: l).filter (fun v => decide (0 ≤ v)) =
      x :: l.filter (fun v => decide (0 ≤ v)) := by
  simp [List.filter_cons, h]

theorem filter_nonneg_cons_neg (x : ℤ) (l : List ℤ) (h : ¬ (0 ≤ x)) :
    (x :: l).filter (fun v => decide (0 ≤ v)) =
      l.filter (fun v => decide (0 ≤ v)) := by
  simp [List.filter_cons, h]

theorem filter_fill_assign (os : ℕ) :
    ∀ (flags : List Bool) (c : ℕ),
      (fillNodeId (os : ℤ) (assignIds flags (c : ℤ))).filter
          (fun v => decide (0 ≤ v)) =
        (List.range' (c + os) (flags.count true)).map (Nat.cast : ℕ → ℤ) := by
  intro flags
  induction flags with
  | nil => intro c; rfl
  | cons b t ih =>
    intro c
    cases b with
    | true =>
      have e1 : assignIds (true :: t) (c : ℤ) =
          (c : ℤ) :: assignIds t ((c : ℤ) + 1) := rfl
      have e2 : ((c : ℤ) + 1) = ((c + 1 : ℕ) : ℤ) := by push_cast; ring
      have e3 : fillNodeId (os : ℤ) ((c : ℤ) :: assignIds t ((c + 1 : ℕ) : ℤ)) =
          ((c : ℤ) + (os : ℤ)) ::
            fillNodeId (os : ℤ) (assignIds t ((c + 1 : ℕ) : ℤ)) := by
        unfold fillNodeId
        rw [List.map_cons, if_pos (Int.ofNat_nonneg c)]
      rw [e1, e2, e3]
      rw [filter_nonneg_cons_pos _ _
        (Int.add_nonneg (Int.ofNat_nonneg c) (Int.ofNat_nonneg os))]
      rw [ih (c + 1)]
      have hcount : (true :: t).count true = t.count true + 1 := by simp
      rw [hcount, List.range'_succ, List.map_cons]
      have e4 : c + 1 + os = c + os + 1 := by omega
      have e5 : ((c : ℤ) + (os : ℤ)) = ((c + os : ℕ) : ℤ) := by push_cast; ring
      rw [e4, e5]
    | false =>
      have e1 : assignIds (false :: t) (c : ℤ) =
          intLowest :: assignIds t (c : ℤ) := rfl
      have hneg : ¬ ((0 : ℤ) ≤ intLowest) := by decide
      have e3 : fillNodeId (os : ℤ) (intLowest :: assignIds t (c : ℤ)) =
          (-1 : ℤ) :: fillNodeId (os : ℤ) (assignIds t (c : ℤ)) := by
        unfold fillNodeId
        rw [List.map_cons, if_neg hneg]
      rw [e1, e3, filter_nonneg_cons_neg _ _ (by decide), ih c]
      have e4 : (false :: t).count true = t.count true := by simp
      rw [e4]

theorem retainedIds_procNodeIds :
    ∀ (ps : List Patch) (start : ℕ),
      retainedIds (procNodeIds start ps) =
        (List.range' start (procCount ps)).map (Nat.cast : ℕ → ℤ) := by
  intro ps
  induction ps with
  | nil => intro start; rfl
  | cons p t ih =>
    intro start
    have h1 : retainedIds (procNodeIds start (p :: t)) =
        (patchNodeIds start p).filter (fun v => decide (0 ≤ v)) ++
          retainedIds (procNodeIds (start + patchCount p) t) := by
      simp [retainedIds, procNodeIds]
    rw [h1, ih]
    have h2 : (patchNodeIds start p).filter (fun v => decide (0 ≤ v)) =
        (List.range' start (patchCount p)).map (Nat.cast : ℕ → ℤ) := by
      have h := filter_fill_assign start (retainedFlags p) 0
      simpa [patchNodeIds, patchCount] using h
    rw [h2, ← List.map_append]
    have h3 : List.range' start (patchCount p) ++
        List.range' (start + patchCount p) (procCount t) =
        List.range' start (procCount t + patchCount p) := by
      have h := List.range'_append start (patchCount p) (procCount t) 1
      simp only [one_mul] at h
      exact h
    rw [h3]
    have h4 : procCount (p :: t) = procCount t + patchCount p := by
      simp [procCount, Nat.add_comm]
    rw [h4]

theorem retainedIds_allNodeIds :
    ∀ (procs : List (List Patch)) (start : ℕ),
      retainedIds (allNodeIds start procs) =
        (List.range' start (totalCount procs)).map (Nat.cast : ℕ → ℤ) := by
  intro procs
  induction procs with
  | nil => intro start; rfl
  | cons ps rest ih =>
    intro start
    have h1 : retainedIds (allNodeIds start (ps :: rest)) =
        retainedIds (procNodeIds start ps) ++
          retainedIds (allNodeIds (start + procCount ps) rest) := by
      simp [retainedIds, allNodeIds]
    rw [h1, retainedIds_procNodeIds ps start, ih, ← List.map_append]
    have h3 : List.range' start (procCount ps) ++
        List.range' (start + procCount ps) (totalCount rest) =
        List.range' start (totalCount rest + procCount ps) := by
      have h := List.range'_append start (procCount ps) (totalCount rest) 1
      simp only [one_mul] at h
      exact h
    rw [h3]
    have h4 : totalCount (ps :: rest) = totalCount rest + procCount ps := by
      simp [totalCount, Nat.add_comm]
    rw [h4]

theorem fillNodeId_mem_cases (os : ℤ) (ids : List ℤ) :
    ∀ v ∈ fillNodeId os ids, (0 ≤ os → 0 ≤ v ∨ v = -1) := by
  intro v hv hos
  rcases List.mem_map.mp hv with ⟨w, _, rfl⟩
  by_cases h : (0 : ℤ) ≤ w
  · left
    rw [if_pos h]
    exact Int.add_nonneg h hos
  · right
    rw [if_neg h]

theorem procNodeIds_patch_decomp :
    ∀ (ps : List Patch) (start : ℕ) (l : List ℤ), l ∈ procNodeIds start ps →
      ∃ s p, l = patchNodeIds s p := by
  intro ps
  induction ps with
  | nil => intro start l h; simp [procNodeIds] at h
  | cons p t ih =>
    intro start l h
    simp only [procNodeIds, List.mem_cons] at h
    cases h with
    | inl h => exact ⟨start, p, h⟩
    | inr h => exact ih _ l h

theorem allNodeIds_patch_decomp :
    ∀ (procs : List (List Patch)) (start : ℕ) (l : List ℤ),
      l ∈ allNodeIds start procs → ∃ s p, l = patchNodeIds s p := by
  intro procs
  induction procs with
  | nil => intro start l h; simp [allNodeIds] at h
  | cons ps rest ih =>
    intro start l h
    simp only [allNodeIds, List.mem_append] at h
    cases h with
    | inl h => exact procNodeIds_patch_decomp ps start l h
    | inr h => exact ih _ l h

theorem procBegin_succ :
    ∀ (procs : List (List Patch)) (r : ℕ), r < procs.length →
      procBegin procs (r + 1) = procBegin procs r + procCount (procs.getD r []) := by
  intro procs
  induction procs with
  | nil => intro r h; simp at h
  | cons ps rest ih =>
    intro r h
    cases r with
    | zero => simp [procBegin, Nat.add_comm]
    | succ m =>
      have hm : m < rest.length := by simpa using h
      have hrec := ih m hm
      simp only [procBegin, List.map_cons, List.take_succ_cons, List.sum_cons,
        List.getD_cons_succ] at hrec ⊢
      omega

/-- Claim C6: after numbering, the non-sentinel node ids taken in traversal
order over all processes are exactly `0, 1, ..., N-1` where `N` is the sum
of all processes' retained counts (a bijection onto `[0, N)` assigned in
row-major, x-fastest order); every rank's ids are the contiguous block
starting at its exclusive partial-sum offset, blocks of successive ranks
abutting (hence disjoint and ordered by rank); every non-retained position
carries the sentinel `-1`; and a single process with an unmasked 4x4 grid
gets exactly the ids `0..15` in row-major order. -/
theorem node_numbering (procs : List (List Patch)) :
    retainedIds (allNodeIds 0 procs) =
      (List.range (totalCount procs)).map (Nat.cast : ℕ → ℤ) ∧
    (∀ r : ℕ, retainedIds (procNodeIds (procBegin procs r) (procs.getD r [])) =
      (List.range' (procBegin procs r) (procCount (procs.getD r []))).map
        (Nat.cast : ℕ → ℤ)) ∧
    (∀ r : ℕ, r < procs.length →
      procBegin procs (r + 1) = procBegin procs r + procCount (procs.getD r [])) ∧
    (∀ v ∈ (allNodeIds 0 procs).flatten, v < 0 → v = -1) ∧
    (allNodeIds 0 [[patch4x4]]).flatten =
      (List.range 16).map (Nat.cast : ℕ → ℤ) := by
  refine ⟨?_, ?_, ?_, ?_, ?_⟩
  · rw [retainedIds_allNodeIds procs 0, List.range_eq_range' (totalCount procs)]
  · intro r
    exact retainedIds_procNodeIds _ _
  · intro r hr
    exact procBegin_succ procs r hr
  · intro v hv hneg
    rcases List.mem_flatten.mp hv with ⟨l, hl, hvl⟩
    rcases allNodeIds_patch_decomp procs 0 l hl with ⟨s, p, rfl⟩
    rcases fillNodeId_mem_cases (s : ℤ) _ v hvl (Int.ofNat_nonneg s) with h | h
    · omega
    · exact h
  · decide

/-- Witness for claim C6: a single process with a two-node patch whose
second node is unowned; the unowned position carries the sentinel `-1`, and
the rank-contiguity equation holds at rank 0. -/
theorem node_numbering_witness :
    (-1 : ℤ) ∈ (allNodeIds 0 [[patchMixed]]).flatten ∧
    procBegin [[patchMixed]] 1 =
      procBegin [[patchMixed]] 0 + procCount ([[patchMixed]].getD 0 []) ∧
    (-1 : ℤ) = -1 :=
  ⟨by decide,
   (node_numbering [[patchMixed]]).2.2.1 0 (by decide),
   (node_numbering [[patchMixed]]).2.2.2.1 (-1) (by decide) (by decide)⟩

/-- Claim C1 (amended): in `prepareForSolve` and `update`, under the claim's
conditions (no Dirichlet boundary, domain covered, no overset mask,
`a_scalar != 0`) a level is marked singular exactly when the sum of the
level's **coarsest**-relaxation-level `A` field (`m_a_coeffs[alev].back()`,
the last field of the restriction hierarchy) is at most `1e-12` times that
same field's maximum absolute value. -/
theorem singular_flag_tracks_coarsest_afield (nd dc ov : Bool) (a_scalar : ℚ)
    (a0 : CellField) (k : ℕ)
    (hnd : nd = true) (hdc : dc = true) (hov : ov = false) (ha : a_scalar ≠ 0) :
    (isSingularLevel nd dc ov a_scalar (aLevelsFrom a_scalar a0 k) = true ↔
      mfSum ((aLevelsFrom a_scalar a0 k).getLastD []) ≤
        norm0 ((aLevelsFrom a_scalar a0 k).getLastD []) * eps12) := by
  subst hnd hdc hov
  simp [isSingularLevel, ha]

/-- Witness for claim C1's amended theorem at a concrete singular level. -/
theorem singular_flag_tracks_coarsest_witness :
    isSingularLevel true true false 1 (aLevelsFrom 1 [0] 0) = true ↔
      mfSum ((aLevelsFrom 1 [0] 0).getLastD []) ≤
        norm0 ((aLevelsFrom 1 [0] 0).getLastD []) * eps12 :=
  singular_flag_tracks_coarsest_afield true true false 1 [0] 0 rfl rfl rfl
    (by norm_num)

/-- Claim C1 is false as stated: with `a_scalar = 1`, no Dirichlet, domain
covered, no overset, a finest-level `A` field `[1, 1, -1, -1 + 1.5e-12]`
and one coarsening step, the code marks the level singular (the coarsest
field `[1, -1 + 0.75e-12]` has sum `0.75e-12 <= 1e-12 * 1`), yet the
claim's predicate on the finest-relaxation-level field fails (its sum
`1.5e-12` exceeds `1e-12` times its maximum absolute value 1). -/
theorem singular_flag_finest_counterexample :
    isSingularLevel true true false 1 (aLevelsFrom 1 c1afield 1) = true ∧
    ¬ (mfSum ((aLevelsFrom 1 c1afield 1).headD []) ≤
        norm0 ((aLevelsFrom 1 c1afield 1).headD []) * eps12) := by
  have hlev : aLevelsFrom 1 c1afield 1 =
      [c1afield, [1, -1 + 3 / (4 * 10 ^ 12)]] := by
    norm_num [aLevelsFrom, coarsenA, averageDown2, c1afield]
  have habs2 : |(-1 + 3 / (4 * 10 ^ 12) : ℚ)| = 1 - 3 / (4 * 10 ^ 12) := by
    rw [abs_of_nonpos (by norm_num)]
    ring
  have habs1 : |(-1 + 3 / (2 * 10 ^ 12) : ℚ)| = 1 - 3 / (2 * 10 ^ 12) := by
    rw [abs_of_nonpos (by norm_num)]
    ring
  have hm2 : norm0 [1, -1 + 3 / (4 * 10 ^ 12)] = 1 := by
    simp only [norm0, List.foldl_cons, List.foldl_nil, habs2, abs_one]
    norm_num [max_def]
  have hm1 : norm0 c1afield = 1 := by
    simp only [c1afield, norm0, List.foldl_cons, List.foldl_nil, habs1,
      abs_neg, abs_one]
    norm_num [max_def]
  constructor
  · rw [hlev]
    unfold isSingularLevel
    rw [if_pos (by decide : (true && true && !false) = true),
      if_neg (by norm_num : ¬ ((1 : ℚ) = 0))]
    apply decide_eq_true
    show mfSum [1, -1 + 3 / (4 * 10 ^ 12)] ≤
      norm0 [1, -1 + 3 / (4 * 10 ^ 12)] * eps12
    rw [hm2]
    norm_num [mfSum, eps12]
  · rw [hlev]
    show ¬ (mfSum c1afield ≤ norm0 c1afield * eps12)
    rw [hm1]
    norm_num [mfSum, c1afield, eps12]

/-- Claim C10: `loadVectors` zeroes the destination solution field at every
position before loading, and the initial-guess values it submits to the
external vector `x` are exactly zero for every submitted row, independent of
the incoming solution values. -/
theorem loadVectors_zero_initial_guess (soln : CellField) (nrows : ℕ) :
    setVal 0 soln = List.replicate soln.length 0 ∧
    loadVectorsXSubmit soln nrows = List.replicate (min nrows soln.length) 0 := by
  have h : setVal 0 soln = List.replicate soln.length 0 := by
    simp [setVal]
  exact ⟨h, by simp [loadVectorsXSubmit, h, List.take_replicate]⟩

end AMReXSpec
